import Mathlib

/-!
Verification development for the email-agent orchestration core.

Shallow embedding of the agent-engine core (`JsonParser.ts`, `Action.ts`,
`BasePrompt.ts`, `TemplatePrompt.ts`, `BaseParser.ts`): JSON extraction,
repair and schema validation, the Action/pipeline composition algebra, and
the `TemplatePrompt` placeholder rendering.  JavaScript runtime behaviour is
modelled as follows: objects produced by `JSON.parse` are association lists
of own properties in insertion order (with a later duplicate key overwriting
the earlier value in place, as `JSON.parse` does); JSON numbers are exact
decimal mantissa-exponent pairs rather than IEEE doubles (no claim below
distinguishes the two);
`JSON.parse` is modelled by a total, fuel-indexed parser of the strict JSON
grammar returning `Option`; a thrown exception is an `Except.error`.
-/

namespace EmailAgent

/-! ## Character classes and JavaScript string helpers -/

/-- Whitespace accepted by the strict JSON grammar (`JSON.parse`):
tab, line feed, carriage return, space. -/
def isJsonWs (c : Char) : Bool :=
  c = ' ' || c = '\t' || c = '\n' || c = '\r'

/-- Character class of the JavaScript regex `\s` (ASCII part): space, tab,
line feed, carriage return, vertical tab, form feed.  The Unicode space
characters also matched by `\s` do not occur in any input considered here. -/
def isJsWs (c : Char) : Bool :=
  c = ' ' || c = '\t' || c = '\n' || c = '\r' ||
  c = Char.ofNat 11 || c = Char.ofNat 12

/-- Word character of the JavaScript regex `\w`: letters, digits, underscore. -/
def isWordChar (c : Char) : Bool :=
  ('a' ≤ c && c ≤ 'z') || ('A' ≤ c && c ≤ 'Z') || ('0' ≤ c && c ≤ '9') || c = '_'

/-- Decimal digit test. -/
def isDigitCh (c : Char) : Bool := '0' ≤ c && c ≤ '9'

/-- Model of `String.prototype.trim` on a character list: whitespace removed
from both ends. -/
def jsTrimList (cs : List Char) : List Char :=
  ((cs.dropWhile isJsWs).reverse.dropWhile isJsWs).reverse

/-- Model of `String.prototype.trim`. -/
def jsTrimStr (s : String) : String :=
  String.mk (jsTrimList s.data)

/-! ## The JSON value model -/

/-- Result of `JSON.parse`: null, booleans, numbers (an exact decimal
`mant × 10 ^ exp10`, free of the float rounding no claim here observes),
strings, arrays, and objects as own-property association lists in insertion
order. -/
inductive Json where
  | null
  | bool (b : Bool)
  | num (mant : Int) (exp10 : Int)
  | str (s : String)
  | arr (elems : List Json)
  | obj (fields : List (String × Json))

/-! ## Model of `JSON.parse` (strict JSON grammar, ECMA-404 / RFC 8259) -/

/-- Numeric value of a list of decimal digits. -/
def digitsToNat (ds : List Char) : Nat :=
  ds.foldl (fun acc c => acc * 10 + (c.toNat - '0'.toNat)) 0

/-- Longest decimal-digit run at the front of the input, and the rest. -/
def spanDigits (cs : List Char) : List Char × List Char :=
  (cs.takeWhile isDigitCh, cs.dropWhile isDigitCh)

/-- Value of a hexadecimal digit, if the character is one. -/
def hexDigitVal (c : Char) : Option Nat :=
  let n := c.toNat
  if 48 ≤ n && n ≤ 57 then some (n - 48)
  else if 97 ≤ n && n ≤ 102 then some (n - 97 + 10)
  else if 65 ≤ n && n ≤ 70 then some (n - 65 + 10)
  else none

/-- Single-character JSON string escapes (the `\uXXXX` form is handled at the
use site). -/
def jsonEscape (c : Char) : Option Char :=
  if c = '"' then some '"'
  else if c = '\\' then some '\\'
  else if c = '/' then some '/'
  else if c = 'b' then some (Char.ofNat 8)
  else if c = 'f' then some (Char.ofNat 12)
  else if c = 'n' then some '\n'
  else if c = 'r' then some '\r'
  else if c = 't' then some '\t'
  else none

/-- Contents of a JSON string after the opening quote.  Unescaped control
characters (code points below 0x20) are rejected, as `JSON.parse` rejects
them. -/
def parseJsonStr (acc : List Char) : List Char → Option (String × List Char)
  | [] => none
  | c :: rest =>
    if c = '"' then some (String.mk acc.reverse, rest)
    else if c = '\\' then
      match rest with
      | [] => none
      | e :: rest' =>
        if e = 'u' then
          match rest' with
          | a :: b :: cc :: d :: rest'' =>
            match hexDigitVal a, hexDigitVal b, hexDigitVal cc, hexDigitVal d with
            | some va, some vb, some vc, some vd =>
              parseJsonStr (Char.ofNat (((va * 16 + vb) * 16 + vc) * 16 + vd) :: acc) rest''
            | _, _, _, _ => none
          | _ => none
        else
          match jsonEscape e with
          | some ch => parseJsonStr (ch :: acc) rest'
          | none => none
    else if c.toNat < 32 then none
    else parseJsonStr (c :: acc) rest

/-- A JSON number starting at the front of the input: optional minus sign,
an integer part with no superfluous leading zero, an optional fraction and an
optional exponent, each requiring at least one digit.  The exact decimal
value `mant × 10 ^ exp10` is returned. -/
def parseJsonNum (cs : List Char) : Option ((Int × Int) × List Char) :=
  let (sign, cs1) : Int × List Char :=
    match cs with
    | '-' :: r => (-1, r)
    | _ => (1, cs)
  let (intDs, cs2) := spanDigits cs1
  match intDs with
  | [] => none
  | d0 :: drest =>
    if d0 = '0' ∧ drest ≠ [] then none
    else
      let (fracDs, cs3) :=
        match cs2 with
        | '.' :: r => spanDigits r
        | _ => ([], cs2)
      let fracOk : Bool := match cs2 with | '.' :: _ => !fracDs.isEmpty | _ => true
      if fracOk then
        match cs3 with
        | 'e' :: r | 'E' :: r =>
          let (esign, r1) : Int × List Char :=
            if r.head? = some '-' then (-1, r.tail)
            else if r.head? = some '+' then (1, r.tail)
            else (1, r)
          let (expDs, r2) := spanDigits r1
          match expDs with
          | [] => none
          | _ :: _ =>
            some ((sign * (digitsToNat (intDs ++ fracDs) : Int),
              esign * (digitsToNat expDs : Int) - (fracDs.length : Int)), r2)
        | _ =>
          some ((sign * (digitsToNat (intDs ++ fracDs) : Int),
            -(fracDs.length : Int)), cs3)
      else none

/-- Whitespace skipped between JSON tokens. -/
def skipJsonWs (cs : List Char) : List Char :=
  cs.dropWhile isJsonWs

/-- First value bound to a key in an own-property association list. -/
def lookupField (fields : List (String × Json)) (k : String) : Option Json :=
  match fields with
  | [] => none
  | (k', v') :: rest => if k' = k then some v' else lookupField rest k

/-- Removal of the first binding of a key. -/
def eraseField (fields : List (String × Json)) (k : String) :
    List (String × Json) :=
  match fields with
  | [] => []
  | (k', v') :: rest => if k' = k then rest else (k', v') :: eraseField rest k

/-- Prepending an object member parsed before `later` under the overwrite
rule of `JSON.parse`: a duplicate key keeps the earlier (front) position and
takes the later value. -/
def consField (k : String) (v : Json) (later : List (String × Json)) :
    List (String × Json) :=
  match lookupField later k with
  | some v' => (k, v') :: eraseField later k
  | none => (k, v) :: later

/-- One or more comma-separated array elements, ending at `]`; each element
is parsed by `pv` (the value parser one nesting level down), and `fuel`
bounds the element count (each element consumes input, so the remaining
length suffices). -/
def parseElemsWith (pv : List Char → Option (Json × List Char)) :
    Nat → List Char → Option (List Json × List Char)
  | 0, _ => none
  | fuel + 1, cs =>
    match pv cs with
    | none => none
    | some (v, r) =>
      match skipJsonWs r with
      | ',' :: r' =>
        match parseElemsWith pv fuel r' with
        | some (vs, r'') => some (v :: vs, r'')
        | none => none
      | ']' :: r' => some ([v], r')
      | _ => none

/-- One or more comma-separated object members, ending at `}`; duplicate
keys are resolved by `consField`. -/
def parseFieldsWith (pv : List Char → Option (Json × List Char)) :
    Nat → List Char → Option (List (String × Json) × List Char)
  | 0, _ => none
  | fuel + 1, cs =>
    match skipJsonWs cs with
    | '"' :: r =>
      match parseJsonStr [] r with
      | none => none
      | some (key, r1) =>
        match skipJsonWs r1 with
        | ':' :: r2 =>
          match pv r2 with
          | none => none
          | some (v, r3) =>
            match skipJsonWs r3 with
            | ',' :: r4 =>
              match parseFieldsWith pv fuel r4 with
              | some (ms, r5) => some (consField key v ms, r5)
              | none => none
            | '}' :: r4 => some ([(key, v)], r4)
            | _ => none
        | _ => none
    | _ => none

/-- Model of one `JSON.parse` value at the front of the input.  `fuel`
bounds the nesting depth; `jsonParseL` supplies enough for any input. -/
def parseJsonVal : Nat → List Char → Option (Json × List Char)
  | 0 => fun _ => none
  | fuel + 1 => fun cs =>
    match skipJsonWs cs with
    | 'n' :: 'u' :: 'l' :: 'l' :: r => some (.null, r)
    | 't' :: 'r' :: 'u' :: 'e' :: r => some (.bool true, r)
    | 'f' :: 'a' :: 'l' :: 's' :: 'e' :: r => some (.bool false, r)
    | '"' :: r =>
      match parseJsonStr [] r with
      | some (s, r') => some (.str s, r')
      | none => none
    | '[' :: r =>
      match skipJsonWs r with
      | ']' :: r' => some (.arr [], r')
      | r' =>
        match parseElemsWith (parseJsonVal fuel) (r'.length + 1) r' with
        | some (es, r'') => some (.arr es, r'')
        | none => none
    | '{' :: r =>
      match skipJsonWs r with
      | '}' :: r' => some (.obj [], r')
      | r' =>
        match parseFieldsWith (parseJsonVal fuel) (r'.length + 1) r' with
        | some (ms, r'') => some (.obj ms, r'')
        | none => none
    | c :: rest =>
      if c = '-' || isDigitCh c then
        match parseJsonNum (c :: rest) with
        | some ((m, e), r') => some (.num m e, r')
        | none => none
      else none
    | [] => none

/-- Model of `JSON.parse` on a character list: `some` is a successful parse
of the whole input (trailing whitespace allowed), `none` a thrown
`SyntaxError`. -/
def jsonParseL (cs : List Char) : Option Json :=
  match parseJsonVal (cs.length + 1) cs with
  | some (v, rest) => if skipJsonWs rest = [] then some v else none
  | none => none

/-- One left-to-right pass of the trailing-comma regex replacement.  At a
comma, the maximal `\s` run is inspected: if it is followed by `}` or `]`,
the whole match is replaced by that closing character and scanning resumes
after it, exactly as a global regex replace does.  Every step consumes at
least one character, so fuel equal to the input length suffices; the
zero-fuel clause is never reached from `commaFix`. -/
def commaFixGo : Nat → List Char → List Char
  | 0, l => l
  | _ + 1, [] => []
  | fuel + 1, c0 :: tl =>
    if c0 = ',' then
      match tl.dropWhile isJsWs with
      | d :: rem =>
        if d = '}' ∨ d = ']' then d :: commaFixGo fuel rem
        else c0 :: commaFixGo fuel tl
      | [] => c0 :: commaFixGo fuel tl
    else c0 :: commaFixGo fuel tl

/-- Model of `repaired.replace(/,\s*([}\]])/g, "$1")`. -/
def commaFix (cs : List Char) : List Char :=
  commaFixGo cs.length cs

/-- Model of `JsonOutputParser.repairJson`: trim, collapse trailing commas,
then append the deficit of closing braces and of closing brackets (counted
textually over the whole string, string literals included). -/
def repairJson (cs : List Char) : List Char :=
  let t := commaFix (jsTrimList cs)
  let t2 := t ++ List.replicate (t.count '{' - t.count '}') '}'
  t2 ++ List.replicate (t2.count '[' - t2.count ']') ']'

/-! ## `JsonOutputParser.extractJson` -/

/-- Backtick character (0x60). -/
def btick : Char := Char.ofNat 96

/-- Does the input begin with a three-backtick fence? -/
def isFenceAt : List Char → Bool
  | a :: b :: c :: _ => a = btick && b = btick && c = btick
  | _ => false

/-- Remainder after the first three-backtick fence, if any. -/
def findFenceRest : List Char → Option (List Char)
  | [] => none
  | c :: rest =>
    if isFenceAt (c :: rest) then some ((c :: rest).drop 3) else findFenceRest rest

/-- Characters before the next three-backtick fence; `none` when no fence
follows. -/
def captureToFence : List Char → Option (List Char)
  | [] => none
  | c :: rest =>
    if isFenceAt (c :: rest) then some []
    else
      match captureToFence rest with
      | some inner => some (c :: inner)
      | none => none

/-- Capture group of the code-block regex
`/(?:json)?\s*\n?([\s\S]*?)/` between fences: after the opening fence an
optional `json` tag and a whitespace run are consumed (the optional newline
is part of that run), then everything up to the next fence is captured
lazily.  No match at the first fence means none anywhere, since the
consumed tag and whitespace contain no backticks. -/
def codeBlockInner (cs : List Char) : Option (List Char) :=
  match findFenceRest cs with
  | none => none
  | some afterOpen =>
    let afterTag :=
      if ['j', 's', 'o', 'n'].isPrefixOf afterOpen then afterOpen.drop 4 else afterOpen
    captureToFence (afterTag.dropWhile isJsWs)

/-- Match of the greedy region regex (`/\{[\s\S]*\}/` for braces,
`/\[[\s\S]*\]/` for brackets): from the first opening character to the last
closing character, provided the opener precedes the closer. -/
def greedyRegion (cs : List Char) (o c : Char) : Option (List Char) :=
  match cs.findIdx? (· = o), cs.reverse.findIdx? (· = c) with
  | some i, some k =>
    let j := cs.length - 1 - k
    if i < j then some ((cs.take (j + 1)).drop i) else none
  | _, _ => none

/-- Model of `JsonOutputParser.extractJson`: the trimmed text if empty or
already valid JSON, else the first fenced code block's content, else the
greedy brace region, else the greedy bracket region, else the whole text
wrapped in braces when it contains a colon, else the literal empty
object. -/
def extractJson (text : String) : String :=
  let trimmed := jsTrimList text.data
  if trimmed.isEmpty then String.mk ['{', '}']
  else if (jsonParseL trimmed).isSome then String.mk trimmed
  else
    match codeBlockInner text.data with
    | some inner => String.mk (jsTrimList inner)
    | none =>
      match greedyRegion text.data '{' '}' with
      | some r => String.mk r
      | none =>
        match greedyRegion text.data '[' ']' with
        | some r => String.mk r
        | none =>
          if text.data.contains ':' then String.mk ('{' :: text.data ++ ['}'])
          else String.mk ['{', '}']

/-! ## `JsonOutputParser.validateSchema` -/

/-- Combined type tag of `Array.isArray(v) ? "array" : typeof v`; note that
`typeof null` is `"object"`. -/
def jsTypeTag : Json → String
  | .null => "object"
  | .bool _ => "boolean"
  | .num _ _ => "number"
  | .str _ => "string"
  | .arr _ => "array"
  | .obj _ => "object"

/-- A canonical numeric string (`"0"`, or digits without a leading zero),
the form under which an array element is addressable by the `in`
operator. -/
def canonicalIndex (k : String) : Option Nat :=
  match k.data with
  | [] => none
  | [c] => if isDigitCh c then some (c.toNat - '0'.toNat) else none
  | c :: rest =>
    if c = '0' then none
    else if (c :: rest).all isDigitCh then some (digitsToNat (c :: rest)) else none

/-- First value bound to a key in an association list of string entries
(used both for prototype tables and for variable bindings). -/
def lookupS (m : List (String × String)) (k : String) : Option String :=
  match m with
  | [] => none
  | (k', v) :: rest => if k' = k then some v else lookupS rest k

/-- String-keyed properties of `Object.prototype` with the type tag their
value has under `typeof`, as every standard ECMAScript environment (Node
included) defines them: the seven methods and `constructor`, all functions,
plus the `__proto__` accessor (whose value is an object) and the four
legacy accessor-definition methods. The `in` operator on a plain object
finds these names through the prototype chain. -/
def objectProtoFields : List (String × String) :=
  [("constructor", "function"), ("hasOwnProperty", "function"),
   ("isPrototypeOf", "function"), ("propertyIsEnumerable", "function"),
   ("toLocaleString", "function"), ("toString", "function"),
   ("valueOf", "function"), ("__proto__", "object"),
   ("__defineGetter__", "function"), ("__defineSetter__", "function"),
   ("__lookupGetter__", "function"), ("__lookupSetter__", "function")]

/-- String-keyed properties an array inherits: the `Array.prototype`
methods (all functions, including the `constructor`/`toString`/
`toLocaleString` that shadow `Object.prototype`'s), then the rest of the
chain through `Object.prototype`. -/
def arrayProtoFields : List (String × String) :=
  (["at", "concat", "copyWithin", "entries", "every", "fill", "filter",
    "find", "findIndex", "findLast", "findLastIndex", "flat", "flatMap",
    "forEach", "includes", "indexOf", "join", "keys", "lastIndexOf", "map",
    "pop", "push", "reduce", "reduceRight", "reverse", "shift", "slice",
    "some", "sort", "splice", "toReversed", "toSorted", "toSpliced",
    "unshift", "values", "with"].map (fun n => (n, "function"))) ++
    objectProtoFields

/-- Type tag of the property a `JSON.parse` result inherits under a name,
when it inherits one: objects inherit from `Object.prototype`, arrays from
`Array.prototype` and then `Object.prototype`; primitives carry no object
wrapper here. -/
def protoTag : Json → String → Option String
  | .obj _, k => lookupS objectProtoFields k
  | .arr _, k => lookupS arrayProtoFields k
  | _, _ => none

/-- Model of `key in parsed` on a `JSON.parse` result: own keys and
prototype-inherited names for objects, in-range canonical indices,
`length` and inherited method names for arrays; `none` models the
`TypeError` the operator throws on a primitive operand. -/
def jsonHasProp : Json → String → Option Bool
  | .obj fields, k =>
    some ((lookupField fields k).isSome || (lookupS objectProtoFields k).isSome)
  | .arr es, k =>
    if k = "length" then some true
    else
      match canonicalIndex k with
      | some i => some (decide (i < es.length))
      | none => some (lookupS arrayProtoFields k).isSome
  | _, _ => none

/-- Own property of a `JSON.parse` result under a name: an object field, an
in-range array element, or an array's `length`. -/
def jsonOwnProp : Json → String → Option Json
  | .obj fields, k => lookupField fields k
  | .arr es, k =>
    if k = "length" then some (.num (es.length : Int) 0)
    else
      match canonicalIndex k with
      | some i => es[i]?
      | none => none
  | _, _ => none

/-- Combined type tag of `parsed[key]` as `validateSchema` computes it
(`Array.isArray(v) ? "array" : typeof v`): the tag of the own property when
one exists, else of the prototype-inherited one, else of `undefined`. -/
def jsonPropTag (j : Json) (k : String) : String :=
  match jsonOwnProp j k with
  | some v => jsTypeTag v
  | none => (protoTag j k).getD "undefined"

/-- Engine message stand-in for the `TypeError` of `in` on a primitive. -/
def typeErrText : String := "Cannot use in operator on a primitive value"

/-- Model of `JsonOutputParser.validateSchema`: every schema entry in order
must name a property of the parsed value whose combined type tag equals the
expected kind string; the first offence produces the error. -/
def validateSchema (schema : List (String × String)) (parsed : Json) :
    Except String Unit :=
  match schema with
  | [] => .ok ()
  | (key, ty) :: rest =>
    match jsonHasProp parsed key with
    | none => .error typeErrText
    | some false => .error ("Missing required field: " ++ key)
    | some true =>
      let actual := jsonPropTag parsed key
      if actual = ty then validateSchema rest parsed
      else .error ("Field \"" ++ key ++ "\" should be " ++ ty ++ ", got " ++ actual)

/-! ## `JsonOutputParser.parse` -/

/-- Underlying cause carried by a parse failure: the `SyntaxError` of
`JSON.parse` (whose engine-specific text is not modelled) or a schema
validation error with its message. -/
inductive ParseCause where
  | syntaxError
  | schemaError (msg : String)

/-- Model of `OutputParserException`: the wrapper always carries the
original raw input (`llmOutput`) and the underlying cause. -/
structure OutputParserException where
  llmOutput : String
  cause : ParseCause

/-- Model of `JsonOutputParser.parse`: extract, repair, structurally parse,
then validate against the schema when one is configured; any failure is
wrapped in an `OutputParserException` carrying the raw input text. -/
def JsonOutputParser.parse (schema : Option (List (String × String)))
    (text : String) : Except OutputParserException Json :=
  let repaired := repairJson (extractJson text).data
  match jsonParseL repaired with
  | none => .error ⟨text, .syntaxError⟩
  | some parsed =>
    match schema with
    | none => .ok parsed
    | some sch =>
      match validateSchema sch parsed with
      | .ok _ => .ok parsed
      | .error msg => .error ⟨text, .schemaError msg⟩

/-! ## The Action composition algebra (`Action.ts`)

An `Action` is either a concrete unit carrying its transform (`_execute`,
collapsed to a function since `run` only adds no-op callback notifications
around it and rethrows) or an `ActionPipeline` over a step list.  Inputs and
outputs share one type, as pipelines feed each step's output to the next. -/

inductive Action (α : Type) where
  | base (f : α → Except String α)
  | pipeline (steps : List (Action α))

/-- Model of `chain`: `Action.chain` builds a pipeline of `[this, other]`,
and the `ActionPipeline` override appends `other` to its own step list; in
both cases `other` is appended as one single step. -/
def Action.chain {α : Type} (a other : Action α) : Action α :=
  match a with
  | .pipeline steps => .pipeline (steps ++ [other])
  | _ => .pipeline [a, other]

/-- Step list of a unit in the sense of the specification: its own single
step when it is not a pipeline, its full step list when it is. -/
def Action.ownSteps {α : Type} : Action α → List (Action α)
  | .pipeline steps => steps
  | a => [a]

/-- Step list of a pipeline (a non-pipeline unit has none). -/
def Action.pipeSteps {α : Type} : Action α → List (Action α)
  | .pipeline steps => steps
  | _ => []

mutual

/-- Model of `run`: a concrete unit applies its transform, a pipeline folds
the input through its steps in order, stopping at the first error. -/
def Action.run {α : Type} : Action α → α → Except String α
  | .base f, x => f x
  | .pipeline steps, x => Action.runSteps steps x

/-- Sequential fold of `ActionPipeline._execute` over the step list. -/
def Action.runSteps {α : Type} : List (Action α) → α → Except String α
  | [], x => Except.ok x
  | s :: rest, x =>
    match Action.run s x with
    | Except.ok y => Action.runSteps rest y
    | Except.error e => Except.error e

end

/-- Model of `runBatch`: `Promise.all(inputs.map(run))`, which settles to
the in-order result list when every run fulfils and rejects with a failing
run's error otherwise; sequenced deterministically here. -/
def Action.runBatch {α : Type} (a : Action α) (inputs : List α) :
    Except String (List α) :=
  inputs.mapM a.run

/-! ## Prompt templates (`BasePrompt.ts`, `TemplatePrompt.ts`)

Variable bindings are modelled as association lists of string-valued
entries in JavaScript object insertion order (`String(value)` is the
identity on strings, so values are carried already stringified). -/

/-- Model of the object spread `{...a, ...b}`: the keys of `a` in their
order, each taking `b`'s value when `b` also binds it, then the keys of `b`
not bound by `a`, in `b`'s order. -/
def jsMergeS (a b : List (String × String)) : List (String × String) :=
  a.map (fun kv => (kv.1, (lookupS b kv.1).getD kv.2)) ++
    b.filter (fun kv => (lookupS a kv.1).isNone)

/-- Scan of the global regex `/\{(\w+)\}/g`: at an opening brace, the
maximal word run must be nonempty and followed by a closing brace, in which
case the run is captured and scanning resumes after the match; otherwise
scanning advances one character.  Every step consumes at least one
character, so fuel equal to the input length suffices. -/
def extractVarsGo : Nat → List Char → List String
  | 0, _ => []
  | _ + 1, [] => []
  | fuel + 1, c :: tl =>
    if c = '{' then
      match tl.takeWhile isWordChar, tl.dropWhile isWordChar with
      | w, d :: rest =>
        if w ≠ [] ∧ d = '}' then String.mk w :: extractVarsGo fuel rest
        else extractVarsGo fuel tl
      | _, [] => extractVarsGo fuel tl
    else extractVarsGo fuel tl

/-- Model of `TemplatePrompt.extractVariables`: the `{identifier}` tokens of
the template in order, one entry per occurrence (no deduplication). -/
def extractVariables (template : String) : List String :=
  extractVarsGo template.data.length template.data

/-- Model of `key in merged` where `merged` is the plain object
`{...partials, ...values}`: an own entry, or a name the object inherits
from `Object.prototype`. -/
def jsObjHasS (m : List (String × String)) (k : String) : Bool :=
  (lookupS m k).isSome || (lookupS objectProtoFields k).isSome

/-- Model of `BasePrompt.validate` for a template whose required variables
are `inputVariables`: merge partials under supplied values, collect the
required variables for which `key in merged` fails, and fail naming them
comma-joined when any is missing.  The `in` test also finds the names the
merged object inherits from `Object.prototype`, which are therefore never
reported missing. -/
def validateVars (inputVariables : List String)
    (partials values : List (String × String)) : Except String Unit :=
  let merged := jsMergeS partials values
  let missing := inputVariables.filter (fun k => !jsObjHasS merged k)
  if missing.isEmpty then Except.ok ()
  else Except.error ("Missing required input variables: " ++
    String.intercalate ", " missing)

/-- Expansion of a string replacement argument of `String.prototype.replace`
at a match of `matched` at offset `pos` of `orig`: the forms recognised with
no capture groups in the pattern are a doubled dollar, dollar-ampersand (the
matched text), dollar-backquote (the text before the match) and
dollar-quote (the text after the match); any other dollar is literal. -/
def expandDollar (orig matched : List Char) (pos : Nat) : List Char → List Char
  | [] => []
  | c :: rest =>
    if c = '$' then
      match rest with
      | [] => ['$']
      | d :: rest' =>
        if d = '$' then '$' :: expandDollar orig matched pos rest'
        else if d = '&' then matched ++ expandDollar orig matched pos rest'
        else if d = Char.ofNat 96 then
          orig.take pos ++ expandDollar orig matched pos rest'
        else if d = Char.ofNat 39 then
          orig.drop (pos + matched.length) ++ expandDollar orig matched pos rest'
        else '$' :: d :: expandDollar orig matched pos rest'
    else c :: expandDollar orig matched pos rest

/-- Global replacement of the literal pattern `p :: ps` scanning `orig` from
offset `pos`: a match emits the expanded replacement and resumes after the
matched text, a mismatch emits one character; matches never overlap.  Every
step consumes at least one character, so fuel equal to the scanned length
suffices; `replRun` supplies exactly that. -/
def jsReplaceGo (orig : List Char) (p : Char) (ps repl : List Char) :
    Nat → Nat → List Char → List Char
  | _, 0, l => l
  | _, _ + 1, [] => []
  | pos, fuel + 1, c :: tl =>
    if (p :: ps).isPrefixOf (c :: tl) then
      expandDollar orig (p :: ps) pos repl ++
        jsReplaceGo orig p ps repl (pos + ps.length + 1) fuel (tl.drop ps.length)
    else c :: jsReplaceGo orig p ps repl (pos + 1) fuel tl

/-- Scan of the global replacement with exactly enough fuel. -/
def replRun (orig : List Char) (p : Char) (ps repl : List Char) (pos : Nat)
    (cs : List Char) : List Char :=
  jsReplaceGo orig p ps repl pos cs.length cs

/-- Model of `result.replace(new RegExp("\\{" + key + "\\}", "g"), value)`:
for the identifier keys produced by variable auto-detection the regex is the
literal `{key}` token (keys containing regex metacharacters do not occur in
the claims considered). -/
def replaceVarAllL (s : List Char) (k : String) (repl : List Char) : List Char :=
  replRun s '{' (k.data ++ ['}']) repl 0 s

/-- Model of the substitution loop of `TemplatePrompt._render` over the
merged entries in order. -/
def renderCoreList (t : List Char) (entries : List (String × String)) : List Char :=
  entries.foldl (fun acc kv => replaceVarAllL acc kv.1 kv.2.data) t

/-- Model of `BasePrompt.render` for a `TemplatePrompt` whose required
variables were auto-detected: validate, then substitute every `{key}`
occurrence for each merged entry. -/
def TemplatePrompt.render (template : String)
    (partials values : List (String × String)) : Except String String :=
  match validateVars (extractVariables template) partials values with
  | Except.error e => Except.error e
  | Except.ok _ =>
    Except.ok (String.mk (renderCoreList template.data (jsMergeS partials values)))

/-! ## Proof-side recursions

Well-founded twins of the fuel-indexed scanners: they satisfy the same
equations (bridged below by induction on the fuel) but have equation lemmas
that recurse on the input, which the rendering proofs induct over. -/

/-- Twin of `jsReplaceGo` recursing on the scanned text. -/
def replAux (orig : List Char) (p : Char) (ps repl : List Char) :
    Nat → List Char → List Char
  | _, [] => []
  | pos, c :: tl =>
    if (p :: ps).isPrefixOf (c :: tl) then
      expandDollar orig (p :: ps) pos repl ++
        replAux orig p ps repl (pos + ps.length + 1) (tl.drop ps.length)
    else c :: replAux orig p ps repl (pos + 1) tl
termination_by _ l => l.length
decreasing_by all_goals simp only [List.length_cons, List.length_drop]; omega

/-- Longest `\w` run split off the front, packaged with the length bound
that justifies termination of `evAux`. -/
def wordSplit (l : List Char) :
    PSigma (fun p : List Char × List Char => p.2.length ≤ l.length) :=
  ⟨(l.takeWhile isWordChar, l.dropWhile isWordChar),
    (List.dropWhile_sublist isWordChar).length_le⟩

/-- Twin of `extractVarsGo` recursing on the scanned text. -/
def evAux : List Char → List String
  | [] => []
  | c :: tl =>
    if c = '{' then
      match wordSplit tl with
      | ⟨(w, d :: rest), _hle⟩ =>
        if w ≠ [] ∧ d = '}' then String.mk w :: evAux rest else evAux tl
      | ⟨(_, []), _⟩ => evAux tl
    else evAux tl
termination_by cs => cs.length
decreasing_by all_goals simp only [List.length_cons] at *; omega

/-! ## Template shapes

Statement-side decomposition of a template into brace-free literal runs and
`{identifier}` tokens, used to state what rendering does to well-formed
templates. -/

inductive Seg where
  | lit (cs : List Char)
  | var (k : String)

/-- Template text denoted by a segment list. -/
def flattenSegs : List Seg → List Char
  | [] => []
  | Seg.lit s :: rest => s ++ flattenSegs rest
  | Seg.var k :: rest => '{' :: (k.data ++ '}' :: flattenSegs rest)

/-- Replacement of every `{k}` token by a literal run. -/
def substSegs (k : String) (v : List Char) : List Seg → List Seg
  | [] => []
  | Seg.lit s :: rest => Seg.lit s :: substSegs k v rest
  | Seg.var k' :: rest =>
    (if k' = k then Seg.lit v else Seg.var k') :: substSegs k v rest

/-- Substitution of the entries of a binding, in order. -/
def foldSubst (entries : List (String × String)) (segs : List Seg) : List Seg :=
  entries.foldl (fun sg kv => substSegs kv.1 kv.2.data sg) segs

/-- Well-formedness of a segment: literal runs carry no brace, token names
are nonempty words. -/
def segWFb : Seg → Bool
  | Seg.lit s => s.all (fun c => c != '{' && c != '}')
  | Seg.var k => !k.data.isEmpty && k.data.all isWordChar

/-- A replacement value free of braces and dollars, which a substitution
therefore inserts verbatim and which can form no new token. -/
def plainChars (v : List Char) : Bool :=
  v.all (fun c => c != '{' && c != '}' && c != '$')

/-- Identifier shape of a binding key. -/
def wordName (k : String) : Bool :=
  !k.data.isEmpty && k.data.all isWordChar

/-- Names of the variable segments, in order. -/
def segVars : List Seg → List String
  | [] => []
  | Seg.lit _ :: rest => segVars rest
  | Seg.var k :: rest => k :: segVars rest

/-! ## Concrete instances used by closed statements -/

/-- Concrete unit adding one. -/
def unitA : Action Nat := Action.base (fun n => Except.ok (n + 1))

/-- Concrete unit doubling. -/
def unitB : Action Nat := Action.base (fun n => Except.ok (n * 2))

/-- Concrete unit adding ten. -/
def unitC : Action Nat := Action.base (fun n => Except.ok (n + 10))

/-- Concrete failing unit. -/
def unitErr : Action Nat := Action.base (fun _ => Except.error "boom")

/-- Concrete well-formed template shape, denoting the template
`Hello `, `{name}`, `!`. -/
def segsW : List Seg := [Seg.lit "Hello ".data, Seg.var "name", Seg.lit "!".data]

/-- Concrete complete binding for `segsW`. -/
def valsW : List (String × String) := [("name", "Bob")]

/-! ## General lemmas on trimming -/

/-- C2 (amended).  `chain` returns a pipeline whose steps are this unit's
steps followed by `other` appended as one single step — `other`'s own steps
are not spliced in.  Left-nested chaining therefore flattens
(`(a.chain b).chain other` has `a`'s steps plus two), while chaining a
pipeline on the right nests it. -/
theorem c2_chain_appends_single_step {α : Type} (a b other : Action α) :
    a.chain other = Action.pipeline (a.ownSteps ++ [other]) ∧
    ((a.chain b).chain other).pipeSteps = a.ownSteps ++ [b, other] := by
  cases a <;> simp [Action.chain, Action.ownSteps, Action.pipeSteps]

/-- C2 counterexample: chaining three units left-nested gives 3 steps, but
`a.chain (b.chain c)` gives a 2-step pipeline whose second step is a nested
2-step pipeline, not a flat 3-step pipeline. -/
theorem c2_claim_counterexample :
    ((unitA.chain unitB).chain unitC).pipeSteps.length = 3 ∧
    (unitA.chain (unitB.chain unitC)).pipeSteps.length = 2 ∧
    ¬ (unitA.chain (unitB.chain unitC)).pipeSteps.length = 3 := by
  refine ⟨rfl, rfl, ?_⟩
  intro h
  simp [unitA, unitB, unitC, Action.chain, Action.pipeSteps] at h

/-! ## C4: repair and fallback examples -/

/-- C4 (amended).  The trailing-comma examples and the empty/whitespace
fallback behave as claimed, but the unbalanced input fails: extraction never
reaches the repair pass with it — lacking a closing brace it falls through
to the colon fallback, which wraps the whole text in braces, and repair then
appends a brace to the already-wrapped text, producing invalid JSON, so
`parse` throws. -/
theorem c4_repair_examples :
    JsonOutputParser.parse none "\x7b\x22a\x22:1,\x7d" =
      Except.ok (Json.obj [("a", Json.num 1 0)]) ∧
    JsonOutputParser.parse none "[1,2,]" =
      Except.ok (Json.arr [Json.num 1 0, Json.num 2 0]) ∧
    JsonOutputParser.parse none "" = Except.ok (Json.obj []) ∧
    JsonOutputParser.parse none "   \n\t   " = Except.ok (Json.obj []) ∧
    extractJson "\x7b\x22a\x22:1" = "\x7b\x7b\x22a\x22:1\x7d" ∧
    repairJson "\x7b\x7b\x22a\x22:1\x7d".data = "\x7b\x7b\x22a\x22:1\x7d\x7d".data ∧
    JsonOutputParser.parse none "\x7b\x22a\x22:1" =
      Except.error ⟨"\x7b\x22a\x22:1", ParseCause.syntaxError⟩ :=
  ⟨rfl, rfl, rfl, rfl, rfl, rfl, rfl⟩

/-- C4 counterexample: the unbalanced input of the claim does not parse to
the claimed object; `parse` throws a syntax failure on it. -/
theorem c4_claim_counterexample :
    JsonOutputParser.parse none "\x7b\x22a\x22:1" =
      Except.error ⟨"\x7b\x22a\x22:1", ParseCause.syntaxError⟩ := rfl

/-! ## C5: empty pipelines -/

/-- C5 (amended).  The pipeline constructor performs no arity validation: an
empty pipeline is constructible and its execution succeeds, returning the
input unchanged; `chain` on the other hand always appends a step, so chained
pipelines have one step more than the left operand's step list. -/
theorem c5_empty_pipeline_runs (x : α) (a other : Action α) :
    (Action.pipeline ([] : List (Action α))).run x = Except.ok x ∧
    (a.chain other).pipeSteps.length = a.ownSteps.length + 1 := by
  constructor
  · simp [Action.run, Action.runSteps]
  · cases a <;> simp [Action.chain, Action.ownSteps, Action.pipeSteps]

/-- C5 counterexample: constructing a pipeline with an empty step list does
not fail, and the resulting unit runs successfully (as the identity) instead
of being unusable. -/
theorem c5_claim_counterexample :
    (Action.pipeline ([] : List (Action Nat))).run 0 = Except.ok 0 := by
  simp [Action.run, Action.runSteps]

/-! ## C7: parse failures carry the raw input and the cause -/

/-- C7.  Whenever `JsonOutputParser.parse` fails, the thrown exception
carries the original raw input text unchanged, and its cause is exactly the
underlying failure: the structural-parse failure of the repaired text, or
the schema validation error; conversely each of those failures does make
`parse` throw such an exception — nothing is swallowed. -/
theorem c7_parse_failure_carries_raw (schema : Option (List (String × String)))
    (text : String) :
    (∀ e : OutputParserException,
      JsonOutputParser.parse schema text = Except.error e →
        e.llmOutput = text ∧
        ((e.cause = ParseCause.syntaxError ∧
            jsonParseL (repairJson (extractJson text).data) = none) ∨
          ∃ msg parsed sch, schema = some sch ∧
            e.cause = ParseCause.schemaError msg ∧
            jsonParseL (repairJson (extractJson text).data) = some parsed ∧
            validateSchema sch parsed = Except.error msg)) ∧
    (jsonParseL (repairJson (extractJson text).data) = none →
      JsonOutputParser.parse schema text =
        Except.error ⟨text, ParseCause.syntaxError⟩) ∧
    (∀ sch parsed msg, schema = some sch →
      jsonParseL (repairJson (extractJson text).data) = some parsed →
      validateSchema sch parsed = Except.error msg →
      JsonOutputParser.parse schema text =
        Except.error ⟨text, ParseCause.schemaError msg⟩) := by
  refine ⟨?_, ?_, ?_⟩
  · intro e he
    unfold JsonOutputParser.parse at he
    cases hj : jsonParseL (repairJson (extractJson text).data) with
    | none =>
      simp only [hj] at he
      obtain rfl : (⟨text, ParseCause.syntaxError⟩ : OutputParserException) = e :=
        Except.error.inj he
      exact ⟨rfl, Or.inl ⟨rfl, rfl⟩⟩
    | some parsed =>
      simp only [hj] at he
      cases schema with
      | none => exact absurd he (by simp)
      | some sch =>
        cases hv : validateSchema sch parsed with
        | ok u => simp only [hv] at he; exact absurd he (by simp)
        | error msg =>
          simp only [hv] at he
          obtain rfl : (⟨text, ParseCause.schemaError msg⟩ : OutputParserException) = e :=
            Except.error.inj he
          exact ⟨rfl, Or.inr ⟨msg, parsed, sch, rfl, rfl, rfl, hv⟩⟩
  · intro hj
    unfold JsonOutputParser.parse
    simp only [hj]
  · intro sch parsed msg hs hj hv
    subst hs
    unfold JsonOutputParser.parse
    simp only [hj, hv]

/-! ## C8: schema validation -/

/-- C9.  `runBatch` either succeeds with a result list in input order, each
entry the successful run of the corresponding input, or rejects as a whole
with the error of a failing input and produces no partial list; any failing
input makes the whole batch reject. -/
theorem c9_runBatch_all_or_nothing {α : Type} (a : Action α)
    (inputs : List α) :
    (∀ l, a.runBatch inputs = Except.ok l →
      l.length = inputs.length ∧
      ∀ (i : Nat) (h1 : i < inputs.length) (h2 : i < l.length),
        a.run (inputs.get ⟨i, h1⟩) = Except.ok (l.get ⟨i, h2⟩)) ∧
    (∀ e, a.runBatch inputs = Except.error e →
      ∃ x ∈ inputs, a.run x = Except.error e) ∧
    ((∃ x ∈ inputs, ∃ e, a.run x = Except.error e) →
      ∃ e, a.runBatch inputs = Except.error e) := by
  induction inputs with
  | nil =>
    refine ⟨?_, ?_, ?_⟩
    · intro l hl
      rw [Action.runBatch, List.mapM_nil] at hl
      obtain rfl : ([] : List α) = l := Except.ok.inj hl
      simp
    · intro e he
      rw [Action.runBatch, List.mapM_nil] at he
      exact absurd he (by simp [pure, Except.pure])
    · rintro ⟨x, hx, -⟩
      exact absurd hx (List.not_mem_nil x)
  | cons x xs ih =>
    have hbatch : a.runBatch (x :: xs) =
        (a.run x).bind fun y => (a.runBatch xs).bind fun ys =>
          Except.ok (y :: ys) := by
      simp only [Action.runBatch, List.mapM_cons]
      rfl
    refine ⟨?_, ?_, ?_⟩
    · intro l hl
      rw [hbatch] at hl
      cases hx : a.run x with
      | error e => rw [hx] at hl; exact absurd hl (by simp [Except.bind])
      | ok y =>
        rw [hx] at hl
        cases hxs : a.runBatch xs with
        | error e => rw [hxs] at hl; exact absurd hl (by simp [Except.bind])
        | ok ys =>
          rw [hxs] at hl
          obtain rfl : y :: ys = l := by simpa [Except.bind] using hl
          obtain ⟨hlen, hidx⟩ := (ih.1 ys) hxs
          refine ⟨by simp [hlen], ?_⟩
          intro i h1 h2
          cases i with
          | zero => simpa using hx
          | succ j =>
            simp only [List.get_cons_succ]
            exact hidx j (by simpa using h1) (by simpa using h2)
    · intro e he
      rw [hbatch] at he
      cases hx : a.run x with
      | error e' =>
        rw [hx] at he
        obtain rfl : e' = e := by simpa [Except.bind] using he
        exact ⟨x, List.mem_cons_self _ _, hx⟩
      | ok y =>
        rw [hx] at he
        cases hxs : a.runBatch xs with
        | error e' =>
          rw [hxs] at he
          obtain rfl : e' = e := by simpa [Except.bind] using he
          obtain ⟨z, hz, hrun⟩ := ih.2.1 _ hxs
          exact ⟨z, List.mem_cons_of_mem _ hz, hrun⟩
        | ok ys =>
          rw [hxs] at he
          exact absurd he (by simp [Except.bind])
    · rintro ⟨z, hz, e, hrun⟩
      rcases List.mem_cons.mp hz with rfl | hz'
      · refine ⟨e, ?_⟩
        rw [hbatch, hrun]
        rfl
      · obtain ⟨e', hbatch'⟩ := ih.2.2 ⟨z, hz', e, hrun⟩
        cases hx : a.run x with
        | error e'' => exact ⟨e'', by rw [hbatch, hx]; rfl⟩
        | ok y => exact ⟨e', by rw [hbatch, hx, hbatch']; rfl⟩

/-! ## C10: a null field satisfies an object-kind schema entry -/

/-- C10.  A schema entry expecting kind `object` accepts a `null` field
value, because the dynamic type tag of `null` is `object`; in particular
`parse` with such a schema succeeds on an input whose field is null. -/
theorem c10_null_passes_object_kind (fields : List (String × Json))
    (k : String) (h : lookupField fields k = some Json.null) :
    validateSchema [(k, "object")] (Json.obj fields) = Except.ok () ∧
    jsTypeTag Json.null = "object" ∧
    JsonOutputParser.parse (some [("a", "object")]) "\x7b\x22a\x22: null\x7d" =
      Except.ok (Json.obj [("a", Json.null)]) := by
  refine ⟨?_, rfl, rfl⟩
  simp [validateSchema, jsonHasProp, jsonPropTag, jsonOwnProp, h, jsTypeTag]

/-- C10 witness: the concrete object whose field `a` is null passes a schema
expecting `a` to be an object. -/
theorem c10_null_witness :
    lookupField [("a", Json.null)] "a" = some Json.null ∧
    validateSchema [("a", "object")] (Json.obj [("a", Json.null)]) =
      Except.ok () :=
  ⟨rfl, (c10_null_passes_object_kind [("a", Json.null)] "a" rfl).1⟩

/-! ## C3: missing-variable detection -/

/-- C3 (amended).  When rendering an auto-detected template with a binding
that leaves some detected variable absent in the sense of the `in` operator
on the merged object — not bound and not a name inherited from
`Object.prototype` — rendering fails and the error message names,
comma-joined, exactly the detected variables absent in that sense, in
template-declaration order (a sublist of the detection list) — but with one
entry per detected occurrence, so a missing variable appearing several
times in the template is named several times: the detected list is not
deduplicated.  Variables named after `Object.prototype` members (such as
`toString`) pass the `in` test unbound and are never reported.  (See the
counterexample for both failures of the original claim.) -/
theorem c3_missing_vars_order (template : String)
    (partials values : List (String × String))
    (h : ∃ k ∈ extractVariables template,
      jsObjHasS (jsMergeS partials values) k = false) :
    ∃ missing : List String,
      TemplatePrompt.render template partials values =
        Except.error ("Missing required input variables: " ++
          String.intercalate ", " missing) ∧
      missing.Sublist (extractVariables template) ∧
      (∀ k : String, jsObjHasS (jsMergeS partials values) k = false →
        missing.count k = (extractVariables template).count k) ∧
      (∀ k : String, jsObjHasS (jsMergeS partials values) k = true →
        missing.count k = 0) := by
  refine ⟨(extractVariables template).filter
    (fun k => !jsObjHasS (jsMergeS partials values) k), ?_, ?_, ?_, ?_⟩
  · have hM : (extractVariables template).filter
        (fun k => !jsObjHasS (jsMergeS partials values) k) ≠ [] := by
      obtain ⟨k, hk, hfalse⟩ := h
      intro hnil
      have : k ∈ (extractVariables template).filter
          (fun k => !jsObjHasS (jsMergeS partials values) k) :=
        List.mem_filter.mpr ⟨hk, by simp [hfalse]⟩
      rw [hnil] at this
      exact List.not_mem_nil k this
    have hval : validateVars (extractVariables template) partials values =
        Except.error ("Missing required input variables: " ++
          String.intercalate ", " ((extractVariables template).filter
            (fun k => !jsObjHasS (jsMergeS partials values) k))) := by
      unfold validateVars
      simp only [List.isEmpty_eq_false.mpr hM, Bool.false_eq_true, if_false]
    unfold TemplatePrompt.render
    rw [hval]
  · exact List.filter_sublist _
  · intro k hk
    exact List.count_filter (by simp [hk])
  · intro k hk
    refine List.count_eq_zero.mpr ?_
    intro hmem
    have := (List.mem_filter.mp hmem).2
    simp [hk] at this
/-- C3 witness: a template with variables `a` and `b` rendered with only `a`
bound fails naming exactly `b`. -/
theorem c3_missing_vars_witness :
    (∃ k ∈ extractVariables "\x7ba\x7d \x7bb\x7d",
      jsObjHasS (jsMergeS [] [("a", "x")]) k = false) ∧
    ∃ missing : List String,
      TemplatePrompt.render "\x7ba\x7d \x7bb\x7d" [] [("a", "x")] =
        Except.error ("Missing required input variables: " ++
          String.intercalate ", " missing) ∧
      missing.Sublist (extractVariables "\x7ba\x7d \x7bb\x7d") ∧
      (∀ k : String, jsObjHasS (jsMergeS [] [("a", "x")]) k = false →
        missing.count k = (extractVariables "\x7ba\x7d \x7bb\x7d").count k) ∧
      (∀ k : String, jsObjHasS (jsMergeS [] [("a", "x")]) k = true →
        missing.count k = 0) :=
  ⟨by decide, c3_missing_vars_order "\x7ba\x7d \x7bb\x7d" [] [("a", "x")]
    (by decide)⟩

/-- C3 counterexample: with the duplicated template variable `a` unbound,
auto-detection yields the undeduplicated list `[a, a]` and the error names
`a` twice, refuting deduplication and at-most-once naming; and the template
whose sole detected variable is `toString`, rendered with nothing bound at
all, raises no error — `toString in merged` finds the inherited method — so
a strict subset of the detected variables does not guarantee failure. -/
theorem c3_claim_counterexample :
    extractVariables "\x7ba\x7d \x7ba\x7d" = ["a", "a"] ∧
    TemplatePrompt.render "\x7ba\x7d \x7ba\x7d" [] [] =
      Except.error "Missing required input variables: a, a" ∧
    extractVariables "\x7btoString\x7d" = ["toString"] ∧
    TemplatePrompt.render "\x7btoString\x7d" [] [] =
      Except.ok "\x7btoString\x7d" :=
  ⟨rfl, rfl, rfl, rfl⟩

/-! ## Bridges between the fuel-indexed scanners and their twins -/

theorem jsReplaceGo_eq_replAux (orig : List Char) (p : Char)
    (ps repl : List Char) :
    ∀ (fuel pos : Nat) (cs : List Char), cs.length ≤ fuel →
      jsReplaceGo orig p ps repl pos fuel cs = replAux orig p ps repl pos cs := by
  intro fuel
  induction fuel with
  | zero =>
    intro pos cs hlen
    obtain rfl : cs = [] := List.length_eq_zero.mp (Nat.le_zero.mp hlen)
    simp [jsReplaceGo, replAux]
  | succ n ih =>
    intro pos cs hlen
    cases cs with
    | nil => simp [jsReplaceGo, replAux]
    | cons c tl =>
      simp only [jsReplaceGo, replAux]
      by_cases hm : (p :: ps).isPrefixOf (c :: tl) = true
      · rw [if_pos hm, if_pos hm]
        congr 1
        apply ih
        have hd := List.length_drop ps.length tl
        simp only [List.length_cons] at hlen
        omega
      · rw [if_neg hm, if_neg hm]
        congr 1
        apply ih
        simp only [List.length_cons] at hlen
        omega

theorem replRun_eq_replAux (orig : List Char) (p : Char) (ps repl : List Char)
    (pos : Nat) (cs : List Char) :
    replRun orig p ps repl pos cs = replAux orig p ps repl pos cs :=
  jsReplaceGo_eq_replAux orig p ps repl cs.length pos cs (Nat.le_refl _)

theorem extractVarsGo_eq_evAux :
    ∀ (fuel : Nat) (cs : List Char), cs.length ≤ fuel →
      extractVarsGo fuel cs = evAux cs := by
  intro fuel
  induction fuel with
  | zero =>
    intro cs hlen
    obtain rfl : cs = [] := List.length_eq_zero.mp (Nat.le_zero.mp hlen)
    simp [extractVarsGo, evAux]
  | succ n ih =>
    intro cs hlen
    cases cs with
    | nil => simp [extractVarsGo, evAux]
    | cons c tl =>
      simp only [extractVarsGo, evAux]
      simp only [List.length_cons] at hlen
      by_cases hc : c = '{'
      · rw [if_pos hc, if_pos hc]
        rcases hws : wordSplit tl with ⟨⟨w, r⟩, hle⟩
        have h1 : (tl.takeWhile isWordChar, tl.dropWhile isWordChar) = (w, r) :=
          congrArg PSigma.fst hws
        injection h1 with hw hr
        rw [hw, hr]
        cases r with
        | nil => exact ih tl (by omega)
        | cons d rest =>
          dsimp only
          by_cases hcase : w ≠ [] ∧ d = '}'
          · rw [if_pos hcase, if_pos hcase]
            congr 1
            apply ih
            simp only [List.length_cons] at hle
            omega
          · rw [if_neg hcase, if_neg hcase]
            exact ih tl (by omega)
      · rw [if_neg hc, if_neg hc]
        exact ih tl (by omega)

theorem extractVariables_eq_evAux (t : String) :
    extractVariables t = evAux t.data :=
  extractVarsGo_eq_evAux t.data.length t.data (Nat.le_refl _)

/-! ## Character-class and prefix lemmas for template rendering -/

theorem wordChar_ne_open {c : Char} (h : isWordChar c = true) : c ≠ '{' := by
  intro e
  subst e
  exact absurd h (by decide)

theorem wordChar_ne_close {c : Char} (h : isWordChar c = true) : c ≠ '}' := by
  intro e
  subst e
  exact absurd h (by decide)

theorem replAux_append_no_open (orig ps repl : List Char) :
    ∀ (s t : List Char) (pos : Nat), (∀ c ∈ s, c ≠ '{') →
      replAux orig '{' ps repl pos (s ++ t) =
        s ++ replAux orig '{' ps repl (pos + s.length) t := by
  intro s
  induction s with
  | nil =>
    intro t pos _
    simp
  | cons c s' ih =>
    intro t pos h
    have hc : c ≠ '{' := h c (List.mem_cons_self _ _)
    have hbe : ('{' == c) = false := beq_eq_false_iff_ne.mpr (Ne.symm hc)
    rw [List.cons_append]
    simp only [replAux]
    rw [if_neg (by simp [List.isPrefixOf, hbe])]
    rw [ih t (pos + 1) (fun x hx => h x (List.mem_cons_of_mem _ hx))]
    have harith : pos + 1 + s'.length = pos + (c :: s').length := by
      simp only [List.length_cons]
      omega
    rw [harith]
    rfl

theorem word_close_not_prefix :
    ∀ (w w' t : List Char),
      (∀ c ∈ w, isWordChar c = true) → (∀ c ∈ w', isWordChar c = true) →
      w ≠ w' → ((w ++ ['}']).isPrefixOf (w' ++ '}' :: t)) = false := by
  intro w
  induction w with
  | nil =>
    intro w' t _ hw' hne
    cases w' with
    | nil => exact absurd rfl hne
    | cons c' w'' =>
      have hc' : c' ≠ '}' :=
        wordChar_ne_close (hw' c' (List.mem_cons_self _ _))
      simp [List.isPrefixOf, beq_eq_false_iff_ne.mpr (Ne.symm hc')]
  | cons a w0 ih =>
    intro w' t hw hw' hne
    cases w' with
    | nil =>
      have ha : a ≠ '}' := wordChar_ne_close (hw a (List.mem_cons_self _ _))
      simp [List.isPrefixOf, beq_eq_false_iff_ne.mpr ha]
    | cons b w1 =>
      by_cases hab : a = b
      · subst hab
        have hne' : w0 ≠ w1 := fun e => hne (by rw [e])
        simp only [List.cons_append, List.isPrefixOf, beq_self_eq_true,
          Bool.true_and]
        exact ih w1 t (fun c hc => hw c (List.mem_cons_of_mem _ hc))
          (fun c hc => hw' c (List.mem_cons_of_mem _ hc)) hne'
      · simp [List.isPrefixOf, beq_eq_false_iff_ne.mpr hab]

theorem pat_isPrefixOf_self :
    ∀ (w t : List Char), ((w ++ ['}']).isPrefixOf (w ++ '}' :: t)) = true := by
  intro w
  induction w with
  | nil => intro t; simp [List.isPrefixOf]
  | cons a w0 ih => intro t; simp [List.isPrefixOf, ih]

theorem drop_pattern_length (w t : List Char) :
    (w ++ '}' :: t).drop (w ++ ['}']).length = t := by
  rw [show w ++ '}' :: t = (w ++ ['}']) ++ t from by simp]
  exact List.drop_left _ _

theorem expandDollar_no_dollar (orig matched : List Char) (pos : Nat) :
    ∀ repl : List Char, (∀ c ∈ repl, c ≠ '$') →
      expandDollar orig matched pos repl = repl
  | [], _ => rfl
  | [c], h => by
    have hc : c ≠ '$' := h c (List.mem_cons_self _ _)
    simp [expandDollar, hc]
  | c :: d :: rest, h => by
    have hc : c ≠ '$' := h c (List.mem_cons_self _ _)
    have hrec := expandDollar_no_dollar orig matched pos (d :: rest)
      (fun x hx => h x (List.mem_cons_of_mem _ hx))
    simp [expandDollar, hc, hrec]

/-! ## Shape lemmas for template rendering -/

theorem wordName_spec {k : String} (hk : wordName k = true) :
    k.data ≠ [] ∧ ∀ c ∈ k.data, isWordChar c = true := by
  have hk0 : (!k.data.isEmpty && k.data.all isWordChar) = true := hk
  rcases Bool.and_eq_true_iff.mp hk0 with ⟨hne, hall⟩
  refine ⟨?_, fun c hc => List.all_eq_true.mp hall c hc⟩
  intro e
  rw [e] at hne
  simp at hne

theorem plainChars_spec {v : List Char} (hv : plainChars v = true) :
    ∀ c ∈ v, c ≠ '{' ∧ c ≠ '}' ∧ c ≠ '$' := by
  intro c hc
  have h0 : ((c != '{' && c != '}') && c != '$') = true :=
    List.all_eq_true.mp hv c hc
  rcases Bool.and_eq_true_iff.mp h0 with ⟨h12, h3⟩
  rcases Bool.and_eq_true_iff.mp h12 with ⟨h1, h2⟩
  exact ⟨bne_iff_ne.mp h1, bne_iff_ne.mp h2, bne_iff_ne.mp h3⟩

theorem segWFb_lit_spec {s : List Char} (h : segWFb (Seg.lit s) = true) :
    ∀ c ∈ s, c ≠ '{' ∧ c ≠ '}' := by
  intro c hc
  have h0 : (c != '{' && c != '}') = true :=
    List.all_eq_true.mp (show (s.all fun c => c != '{' && c != '}') = true from h) c hc
  rcases Bool.and_eq_true_iff.mp h0 with ⟨h1, h2⟩
  exact ⟨bne_iff_ne.mp h1, bne_iff_ne.mp h2⟩

theorem span_word_append (d : Char) (t : List Char) (hd : isWordChar d = false) :
    ∀ w : List Char, (∀ c ∈ w, isWordChar c = true) →
      (w ++ d :: t).takeWhile isWordChar = w ∧
        (w ++ d :: t).dropWhile isWordChar = d :: t := by
  intro w
  induction w with
  | nil =>
    intro _
    constructor
    · simp [List.takeWhile_cons, hd]
    · simp [List.dropWhile_cons, hd]
  | cons a w0 ih =>
    intro hw
    have ha : isWordChar a = true := hw a (List.mem_cons_self _ _)
    obtain ⟨ih1, ih2⟩ := ih (fun c hc => hw c (List.mem_cons_of_mem _ hc))
    constructor
    · simp [List.takeWhile_cons, ha, ih1]
    · simp [List.dropWhile_cons, ha, ih2]

theorem evAux_not_open {c : Char} (hc : ¬ c = '{') (tl : List Char) :
    evAux (c :: tl) = evAux tl := by
  simp only [evAux]
  rw [if_neg hc]

theorem evAux_append_no_open :
    ∀ s t : List Char, (∀ c ∈ s, c ≠ '{') → evAux (s ++ t) = evAux t := by
  intro s
  induction s with
  | nil => intro t _; rfl
  | cons c s0 ih =>
    intro t h
    rw [List.cons_append, evAux_not_open (h c (List.mem_cons_self _ _)) _]
    exact ih t (fun x hx => h x (List.mem_cons_of_mem _ hx))

theorem evAux_token (k : String) (hk : wordName k = true) (t : List Char) :
    evAux ('{' :: (k.data ++ '}' :: t)) = k :: evAux t := by
  obtain ⟨hkne, hkw⟩ := wordName_spec hk
  obtain ⟨hta, hdr⟩ := span_word_append '}' t (by decide) k.data hkw
  simp only [evAux]
  rw [if_true]
  rcases hws : wordSplit (k.data ++ '}' :: t) with ⟨⟨w, r⟩, hle⟩
  have h1 : ((k.data ++ '}' :: t).takeWhile isWordChar,
      (k.data ++ '}' :: t).dropWhile isWordChar) = (w, r) :=
    congrArg PSigma.fst hws
  rw [hta, hdr] at h1
  injection h1 with hw hr
  subst hw
  subst hr
  dsimp only
  rw [if_pos ⟨hkne, rfl⟩]

theorem evAux_flatten :
    ∀ segs : List Seg, (∀ sg ∈ segs, segWFb sg = true) →
      evAux (flattenSegs segs) = segVars segs := by
  intro segs
  induction segs with
  | nil => intro _; simp [flattenSegs, evAux, segVars]
  | cons sg rest ih =>
    intro hwf
    have hrest : ∀ s ∈ rest, segWFb s = true :=
      fun s hs => hwf s (List.mem_cons_of_mem _ hs)
    cases sg with
    | lit s =>
      have hs : ∀ c ∈ s, c ≠ '{' := fun c hc =>
        (segWFb_lit_spec (hwf (Seg.lit s) (List.mem_cons_self _ _)) c hc).1
      rw [show flattenSegs (Seg.lit s :: rest) = s ++ flattenSegs rest from rfl]
      rw [evAux_append_no_open s _ hs, ih hrest]
      rfl
    | var k =>
      have hk : wordName k = true := hwf (Seg.var k) (List.mem_cons_self _ _)
      rw [show flattenSegs (Seg.var k :: rest) =
          '{' :: (k.data ++ '}' :: flattenSegs rest) from rfl]
      rw [evAux_token k hk (flattenSegs rest), ih hrest]
      rfl

theorem replAux_flatten (k : String) (v orig : List Char)
    (hk : wordName k = true) (hv : plainChars v = true) :
    ∀ (segs : List Seg) (pos : Nat), (∀ sg ∈ segs, segWFb sg = true) →
      replAux orig '{' (k.data ++ ['}']) v pos (flattenSegs segs) =
        flattenSegs (substSegs k v segs) := by
  obtain ⟨hkne, hkw⟩ := wordName_spec hk
  have hvnd : ∀ c ∈ v, c ≠ '$' := fun c hc => (plainChars_spec hv c hc).2.2
  intro segs
  induction segs with
  | nil =>
    intro pos _
    simp [flattenSegs, substSegs, replAux]
  | cons sg rest ih =>
    intro pos hwf
    have hrest : ∀ s ∈ rest, segWFb s = true :=
      fun s hs => hwf s (List.mem_cons_of_mem _ hs)
    cases sg with
    | lit s =>
      have hs : ∀ c ∈ s, c ≠ '{' := fun c hc =>
        (segWFb_lit_spec (hwf (Seg.lit s) (List.mem_cons_self _ _)) c hc).1
      rw [show flattenSegs (Seg.lit s :: rest) = s ++ flattenSegs rest from rfl]
      rw [replAux_append_no_open orig (k.data ++ ['}']) v s (flattenSegs rest) pos hs]
      rw [ih (pos + s.length) hrest]
      rfl
    | var k2 =>
      have hk2 : wordName k2 = true := hwf (Seg.var k2) (List.mem_cons_self _ _)
      obtain ⟨hk2ne, hk2w⟩ := wordName_spec hk2
      rw [show flattenSegs (Seg.var k2 :: rest) =
          '{' :: (k2.data ++ '}' :: flattenSegs rest) from rfl]
      by_cases hkk : k2 = k
      · subst hkk
        have hrhs : substSegs k2 v (Seg.var k2 :: rest) =
            Seg.lit v :: substSegs k2 v rest := by
          simp [substSegs]
        rw [hrhs]
        simp only [replAux]
        have hpre : (('{' :: (k2.data ++ ['}'])).isPrefixOf
            ('{' :: (k2.data ++ '}' :: flattenSegs rest))) = true := by
          simp [List.isPrefixOf, pat_isPrefixOf_self]
        rw [if_pos hpre]
        rw [expandDollar_no_dollar orig ('{' :: (k2.data ++ ['}'])) pos v hvnd]
        rw [drop_pattern_length]
        rw [ih (pos + (k2.data ++ ['}']).length + 1) hrest]
        rfl
      · have hrhs : substSegs k v (Seg.var k2 :: rest) =
            Seg.var k2 :: substSegs k v rest := by
          simp [substSegs, hkk]
        rw [hrhs]
        simp only [replAux]
        have hwne : k.data ≠ k2.data := fun e => hkk (String.ext e.symm)
        have hnpre := word_close_not_prefix k.data k2.data (flattenSegs rest)
          hkw hk2w hwne
        have hnp : (('{' :: (k.data ++ ['}'])).isPrefixOf
            ('{' :: (k2.data ++ '}' :: flattenSegs rest))) = false := by
          simp [List.isPrefixOf, hnpre]
        rw [if_neg (by simp [hnp])]
        rw [show flattenSegs (Seg.var k2 :: substSegs k v rest) =
            '{' :: (k2.data ++ '}' :: flattenSegs (substSegs k v rest)) from rfl]
        congr 1
        have hk2open : ∀ c ∈ k2.data, c ≠ '{' :=
          fun c hc => wordChar_ne_open (hk2w c hc)
        rw [replAux_append_no_open orig (k.data ++ ['}']) v k2.data
          ('}' :: flattenSegs rest) (pos + 1) hk2open]
        congr 1
        simp only [replAux]
        have hbb : (('{' : Char) == '}') = false := by decide
        have hnp2 : (('{' :: (k.data ++ ['}'])).isPrefixOf
            ('}' :: flattenSegs rest)) = false := by
          simp [List.isPrefixOf, hbb]
        rw [if_neg (by simp [hnp2])]
        congr 1
        exact ih (pos + 1 + k2.data.length + 1) hrest

theorem substSegs_wf (k : String) (v : List Char) (hv : plainChars v = true) :
    ∀ segs : List Seg, (∀ sg ∈ segs, segWFb sg = true) →
      ∀ sg ∈ substSegs k v segs, segWFb sg = true := by
  intro segs
  induction segs with
  | nil =>
    intro _ sg hs
    simp [substSegs] at hs
  | cons s0 rest ih =>
    intro hwf sg hs
    have hrest : ∀ s ∈ rest, segWFb s = true :=
      fun s h => hwf s (List.mem_cons_of_mem _ h)
    cases s0 with
    | lit s =>
      rw [show substSegs k v (Seg.lit s :: rest) =
          Seg.lit s :: substSegs k v rest from rfl] at hs
      rcases List.mem_cons.mp hs with rfl | h2
      · exact hwf (Seg.lit s) (List.mem_cons_self _ _)
      · exact ih hrest sg h2
    | var k2 =>
      by_cases hkk : k2 = k
      · rw [show substSegs k v (Seg.var k2 :: rest) =
            (if k2 = k then Seg.lit v else Seg.var k2) :: substSegs k v rest
            from rfl, if_pos hkk] at hs
        rcases List.mem_cons.mp hs with rfl | h2
        · show (v.all fun c => c != '{' && c != '}') = true
          apply List.all_eq_true.mpr
          intro c hc
          have h3 := plainChars_spec hv c hc
          exact Bool.and_eq_true_iff.mpr ⟨bne_iff_ne.mpr h3.1, bne_iff_ne.mpr h3.2.1⟩
        · exact ih hrest sg h2
      · rw [show substSegs k v (Seg.var k2 :: rest) =
            (if k2 = k then Seg.lit v else Seg.var k2) :: substSegs k v rest
            from rfl, if_neg hkk] at hs
        rcases List.mem_cons.mp hs with rfl | h2
        · exact hwf (Seg.var k2) (List.mem_cons_self _ _)
        · exact ih hrest sg h2

theorem mem_segVars_substSegs (k : String) (v : List Char) :
    ∀ (segs : List Seg) (x : String),
      x ∈ segVars (substSegs k v segs) → x ∈ segVars segs ∧ x ≠ k := by
  intro segs
  induction segs with
  | nil =>
    intro x hx
    simp [substSegs, segVars] at hx
  | cons s0 rest ih =>
    intro x hx
    cases s0 with
    | lit s =>
      have hx2 : x ∈ segVars (substSegs k v rest) := hx
      exact ih x hx2
    | var k2 =>
      by_cases hkk : k2 = k
      · have h0 : substSegs k v (Seg.var k2 :: rest) =
            Seg.lit v :: substSegs k v rest := by simp [substSegs, hkk]
        rw [h0] at hx
        obtain ⟨h1, h2⟩ := ih x hx
        exact ⟨List.mem_cons_of_mem _ h1, h2⟩
      · have h0 : substSegs k v (Seg.var k2 :: rest) =
            Seg.var k2 :: substSegs k v rest := by simp [substSegs, hkk]
        rw [h0] at hx
        have hx2 : x ∈ k2 :: segVars (substSegs k v rest) := hx
        rcases List.mem_cons.mp hx2 with rfl | h2
        · exact ⟨List.mem_cons_self _ _, hkk⟩
        · obtain ⟨h1, h3⟩ := ih x h2
          exact ⟨List.mem_cons_of_mem _ h1, h3⟩

theorem segVars_foldSubst_nil :
    ∀ (entries : List (String × String)) (segs : List Seg),
      (∀ x ∈ segVars segs, (lookupS entries x).isSome = true) →
      segVars (foldSubst entries segs) = [] := by
  intro entries
  induction entries with
  | nil =>
    intro segs h
    have hnil : segVars segs = [] := by
      by_contra hne
      obtain ⟨x, hx⟩ := List.exists_mem_of_ne_nil _ hne
      have h2 := h x hx
      simp [lookupS] at h2
    exact hnil
  | cons kv entries2 ih =>
    obtain ⟨k0, v0⟩ := kv
    intro segs h
    have hstep : foldSubst ((k0, v0) :: entries2) segs =
        foldSubst entries2 (substSegs k0 v0.data segs) := rfl
    rw [hstep]
    apply ih
    intro x hx
    obtain ⟨hxs, hxk⟩ := mem_segVars_substSegs k0 v0.data segs x hx
    have h2 := h x hxs
    rw [show lookupS ((k0, v0) :: entries2) x =
        if k0 = x then some v0 else lookupS entries2 x from rfl] at h2
    rw [if_neg (fun e => hxk e.symm)] at h2
    exact h2

theorem foldSubst_wf :
    ∀ (entries : List (String × String)) (segs : List Seg),
      (∀ kv ∈ entries, plainChars kv.2.data = true) →
      (∀ sg ∈ segs, segWFb sg = true) →
      ∀ sg ∈ foldSubst entries segs, segWFb sg = true := by
  intro entries
  induction entries with
  | nil =>
    intro segs _ hwf
    exact hwf
  | cons kv entries2 ih =>
    obtain ⟨k0, v0⟩ := kv
    intro segs hent hwf
    exact ih (substSegs k0 v0.data segs)
      (fun kv h => hent kv (List.mem_cons_of_mem _ h))
      (substSegs_wf k0 v0.data (hent (k0, v0) (List.mem_cons_self _ _)) segs hwf)

theorem flatten_no_brace :
    ∀ segs : List Seg, (∀ sg ∈ segs, segWFb sg = true) → segVars segs = [] →
      ∀ c ∈ flattenSegs segs, c ≠ '{' ∧ c ≠ '}' := by
  intro segs
  induction segs with
  | nil =>
    intro _ _ c hc
    simp [flattenSegs] at hc
  | cons s0 rest ih =>
    intro hwf hv c hc
    cases s0 with
    | lit s =>
      have hc2 : c ∈ s ++ flattenSegs rest := hc
      rcases List.mem_append.mp hc2 with h1 | h2
      · exact segWFb_lit_spec (hwf (Seg.lit s) (List.mem_cons_self _ _)) c h1
      · exact ih (fun sg h => hwf sg (List.mem_cons_of_mem _ h)) hv c h2
    | var k2 =>
      exact absurd hv (by simp [segVars])

theorem renderCore_flatten :
    ∀ (entries : List (String × String)) (segs : List Seg),
      (∀ sg ∈ segs, segWFb sg = true) →
      (∀ kv ∈ entries, wordName kv.1 = true ∧ plainChars kv.2.data = true) →
      renderCoreList (flattenSegs segs) entries =
        flattenSegs (foldSubst entries segs) := by
  intro entries
  induction entries with
  | nil =>
    intro segs _ _
    rfl
  | cons kv entries2 ih =>
    obtain ⟨k0, v0⟩ := kv
    intro segs hwf hent
    obtain ⟨hk0, hv0⟩ := hent (k0, v0) (List.mem_cons_self _ _)
    have hstep : replaceVarAllL (flattenSegs segs) k0 v0.data =
        flattenSegs (substSegs k0 v0.data segs) := by
      show replRun (flattenSegs segs) '{' (k0.data ++ ['}']) v0.data 0
        (flattenSegs segs) = flattenSegs (substSegs k0 v0.data segs)
      rw [replRun_eq_replAux]
      exact replAux_flatten k0 v0.data (flattenSegs segs) hk0 hv0 segs 0 hwf
    have hgoal : renderCoreList (flattenSegs segs) ((k0, v0) :: entries2) =
        renderCoreList (replaceVarAllL (flattenSegs segs) k0 v0.data) entries2 := rfl
    rw [hgoal, hstep]
    rw [ih (substSegs k0 v0.data segs)
      (substSegs_wf k0 v0.data hv0 segs hwf)
      (fun kv h => hent kv (List.mem_cons_of_mem _ h))]
    rfl

/-- **C6.** Corrected form of the round-trip property.  For a well-formed
template shape (brace-free literal runs interleaved with nonempty-identifier
tokens) and a complete merged binding whose keys are identifiers and whose
values contain no brace and no dollar, `render` succeeds, every occurrence of
every token is replaced entry by entry in merge order, and the result
contains no brace at all — in particular no remaining token of any variable.
The well-formedness of the values is necessary: a substituted value may
itself spell a token of an earlier-processed variable, which then survives
(see the counterexample). -/
theorem c6_render_substitutes_all (segs : List Seg)
    (partials values : List (String × String))
    (hwf : ∀ sg ∈ segs, segWFb sg = true)
    (hent : ∀ kv ∈ jsMergeS partials values,
      wordName kv.1 = true ∧ plainChars kv.2.data = true)
    (hcomplete : ∀ x ∈ segVars segs,
      (lookupS (jsMergeS partials values) x).isSome = true) :
    TemplatePrompt.render (String.mk (flattenSegs segs)) partials values =
      Except.ok (String.mk (flattenSegs (foldSubst (jsMergeS partials values) segs))) ∧
    (∀ c ∈ flattenSegs (foldSubst (jsMergeS partials values) segs),
      c ≠ '{' ∧ c ≠ '}') ∧
    ∀ x : String, ¬ List.IsInfix ('{' :: (x.data ++ ['}']))
      (flattenSegs (foldSubst (jsMergeS partials values) segs)) := by
  have hnb : ∀ c ∈ flattenSegs (foldSubst (jsMergeS partials values) segs),
      c ≠ '{' ∧ c ≠ '}' :=
    flatten_no_brace (foldSubst (jsMergeS partials values) segs)
      (foldSubst_wf (jsMergeS partials values) segs
        (fun kv h => (hent kv h).2) hwf)
      (segVars_foldSubst_nil (jsMergeS partials values) segs hcomplete)
  refine ⟨?_, hnb, ?_⟩
  · have hvars : extractVariables (String.mk (flattenSegs segs)) = segVars segs := by
      rw [extractVariables_eq_evAux]
      exact evAux_flatten segs hwf
    have hfil : (segVars segs).filter
        (fun x => !jsObjHasS (jsMergeS partials values) x) = [] := by
      apply List.filter_eq_nil_iff.mpr
      intro a ha
      have h1 := hcomplete a ha
      simp [jsObjHasS, h1]
    have hval : validateVars (extractVariables (String.mk (flattenSegs segs)))
        partials values = Except.ok () := by
      rw [hvars]
      simp only [validateVars]
      rw [hfil]
      rfl
    unfold TemplatePrompt.render
    rw [hval]
    dsimp only
    rw [renderCore_flatten (jsMergeS partials values) segs hwf hent]
  · intro x hinf
    obtain ⟨s1, s2, heq⟩ := hinf
    have hmem : '{' ∈ flattenSegs (foldSubst (jsMergeS partials values) segs) := by
      rw [← heq]
      simp
    exact (hnb '{' hmem).1 rfl

/-- Witness for C6 at the concrete template `Hello \x7bname\x7d!` with the
binding `name = Bob`. -/
theorem c6_render_witness :
    TemplatePrompt.render (String.mk (flattenSegs segsW)) [] valsW =
      Except.ok (String.mk (flattenSegs (foldSubst (jsMergeS [] valsW) segsW))) ∧
    (∀ c ∈ flattenSegs (foldSubst (jsMergeS [] valsW) segsW),
      c ≠ '{' ∧ c ≠ '}') ∧
    ∀ x : String, ¬ List.IsInfix ('{' :: (x.data ++ ['}']))
      (flattenSegs (foldSubst (jsMergeS [] valsW) segsW)) :=
  c6_render_substitutes_all segsW [] valsW (by decide) (by decide) (by decide)

/-- Counterexample to C6 as stated: on the template `\x7ba\x7d\x7bb\x7d` with
the complete binding `a = x`, `b = \x7ba\x7d`, rendering succeeds with
`x\x7ba\x7d`, which still contains the token of the provided variable `a`:
the value substituted for `b` re-creates it after `a` was processed. -/
theorem c6_claim_counterexample :
    TemplatePrompt.render "\x7ba\x7d\x7bb\x7d" []
        [("a", "x"), ("b", "\x7ba\x7d")] = Except.ok "x\x7ba\x7d" ∧
    (lookupS [("a", "x"), ("b", "\x7ba\x7d")] "a").isSome = true ∧
    List.IsInfix ('{' :: ("a".data ++ ['}'])) "x\x7ba\x7d".data :=
  ⟨rfl, rfl, ⟨['x'], [], rfl⟩⟩

end EmailAgent
